import Mathlib

/-!
# Verification of the reliability-based CMA-ES learner (pypuf)

Shallow embedding of `pypuf/learner/evolution_strategies/cmaes.py` over exact
rational arithmetic.  Matrices are lists of rows; a float NaN produced by a
zero denominator is tracked explicitly.
-/

namespace Pypuf

/-- Dot product of two rational vectors (`np.dot` / `tf.tensordot` with `axes=1`). -/
def dot (x y : List ℚ) : ℚ := (List.zipWith (· * ·) x y).sum

/-- Mean of a vector (`np.mean` / `tf.reduce_mean`). For the empty list this is
`0/0 = 0` in rational arithmetic; all uses below are on nonempty vectors. -/
def mean (x : List ℚ) : ℚ := x.sum / x.length

/-- Centering step of `tf_pearsonr`: `x - tf.reduce_mean(x)`. -/
def centered (x : List ℚ) : List ℚ := x.map (fun a => a - mean x)

/-- Sum of squares, `tf.reduce_sum(v**2)`. -/
def sumSq (x : List ℚ) : ℚ := (x.map (fun a => a * a)).sum

/-- Result of `tf_pearsonr` for one candidate column, kept in exact form:
`num` is the covariance numerator `cov_xy` and `denSq` is the square of the
denominator `auto_cov = sqrt(sum(centered_x**2) * sum(centered_y**2))`.
The float value of the correlation is `num / sqrt denSq`; it is NaN exactly
when `denSq = 0` (then also `num = 0`, giving `0/0`). -/
structure PearsonResult where
  num : ℚ
  denSq : ℚ
  deriving Repr, DecidableEq

/-- The function `tf_pearsonr(x, y)` from `cmaes.py`, for a single candidate:
`centered_x = x - mean x`, `centered_y = y - mean y`,
`cov_xy = tensordot(centered_y, centered_x)`,
`auto_cov = sqrt(sum(centered_x^2) * sum(centered_y^2))`, result `cov_xy / auto_cov`.
We return the exact pair (numerator, denominator squared). -/
def tf_pearsonr (x y : List ℚ) : PearsonResult :=
  { num := dot (centered y) (centered x)
    denSq := sumSq (centered x) * sumSq (centered y) }

/-- The float computation `cov_xy / auto_cov` yields NaN exactly when the
denominator is zero (the numerator is then forced to zero as well, so the
float division is `0/0`). -/
def PearsonResult.isNaN (r : PearsonResult) : Bool := r.denSq == 0

/-! ## Reliability extractor (`reliabilities_puf`, `reliabilities_model`) -/

/-- Modelled from the spec: `pypuf.tools.transform_challenge_11_to_01` is not
under `src/`.  It converts a single ±1-encoded row to 0/1 encoding, mapping
`1 ↦ 0` and `-1 ↦ 1` (other values unchanged); the spec records the resulting
behaviour of `measured_reliability` as `|R/2 - count_of(+1 in row)|`, which
this mapping produces (see `reliabilities_puf_eq_of_pm`). -/
def transformRow (row : List ℤ) : List ℤ :=
  row.map (fun b => if b = 1 then 0 else if b = -1 then 1 else b)

/-- Row-wise application of `transformRow` to a response matrix
(`transform_challenge_11_to_01` on a 2-D array). -/
def transform_challenge_11_to_01 (m : List (List ℤ)) : List (List ℤ) :=
  m.map transformRow

/-- The test `-1 in response_bits` from `reliabilities_puf`. -/
def containsNegOne (m : List (List ℤ)) : Bool :=
  m.any (fun row => row.any (fun b => b == -1))

/-- Number of columns, `response_bits.shape[1]` of a rectangular matrix. -/
def shape1 (m : List (List ℤ)) : Nat := (m.headD []).length

/-- The function `reliabilities_puf(response_bits)` from `cmaes.py`: convert a
±1 matrix to 0/1 encoding when a `-1` is present, then return per row
`np.abs(shape[1]/2 - np.sum(row))`. -/
def reliabilities_puf (m : List (List ℤ)) : List ℚ :=
  let response_bits := if containsNegOne m then transform_challenge_11_to_01 m else m
  response_bits.map (fun row => |(shape1 response_bits : ℚ) / 2 - (row.sum : ℚ)|)

/-- Number of `+1` entries in a row, the count the spec states
`measured_reliability` is computed from. -/
def countPlus (row : List ℤ) : Nat := row.countP (fun b => b == 1)

/-- The function `reliabilities_model(delay_diffs, epsilon)` from `cmaes.py`
for one candidate: `tf.cast(tf.math.greater(tf.abs(delay_diffs), epsilon), double)`,
i.e. entry `1` when `|delay_diff| > epsilon` and `0` otherwise. -/
def reliabilities_model (delay_diffs : List ℚ) (epsilon : ℚ) : List ℚ :=
  delay_diffs.map (fun d => if epsilon < |d| then 1 else 0)

/-- The single-candidate content of `ReliabilityBasedCMAES.objective`:
delay differences are `weights · challenge` per challenge row, the model
reliabilities are compared against the fixed PUF reliabilities with
`tf_pearsonr`.  The float objective value is `|1 - num/sqrt denSq|`,
which is NaN exactly when the Pearson result `isNaN`. -/
def objectivePearson (weights : List ℚ) (epsilon : ℚ)
    (current_challenges : List (List ℚ)) (puf_reliabilities : List ℚ) :
    PearsonResult :=
  let delay_diffs := current_challenges.map (fun c => dot weights c)
  tf_pearsonr (reliabilities_model delay_diffs epsilon) puf_reliabilities

/-! ## Chain pool assembly (`ReliabilityBasedCMAES.learn`, acceptance loop) -/

/-- Sign canonicalization of a learned chain, line 178 of `cmaes.py`:
`w = -w if w[0] < 0 else w`. -/
def canonicalize : List ℚ → List ℚ
  | [] => []
  | a :: t => if a < 0 then (a :: t).map (fun x => -x) else a :: t

/-- Post-processing of one CMA-ES solution in `learn`: drop the trailing
epsilon parameter (`w = w[:-1]`), then canonicalize the sign. -/
def processCandidate (sol : List ℚ) : List ℚ := canonicalize sol.dropLast

/-- Exact-arithmetic form of the duplicate test
`tf.abs(pearsonr(w, v)[0]) > 0.5` from `learn`: with
`cov = dot (centered w) (centered v)` and squared denominator
`sumSq (centered w) * sumSq (centered v)`, the float comparison holds iff
`4 * cov² > Sw * Sv` (squaring both sides of `|cov|/sqrt(Sw*Sv) > 1/2`;
when `Sw * Sv = 0` the float correlation is NaN, the comparison is false,
and so is `4 * 0 > 0`). -/
def absCorrExceedsHalf (w v : List ℚ) : Bool :=
  let cov := dot (centered w) (centered v)
  decide (4 * cov ^ 2 > sumSq (centered w) * sumSq (centered v))

/-- Exact-arithmetic form of the spec predicate that the absolute pairwise
correlation is strictly below the duplicate threshold `0.5`:
`|cov|/sqrt(Sw*Sv) < 1/2` iff `4 * cov² < Sw * Sv` (a NaN correlation,
`Sw * Sv = 0` hence `cov = 0`, is not below the threshold either). -/
def absCorrBelowHalf (w v : List ℚ) : Bool :=
  let cov := dot (centered w) (centered v)
  decide (4 * cov ^ 2 < sumSq (centered w) * sumSq (centered v))

/-- Acceptance test of `learn`: the `for i, v in enumerate(pool)` loop breaks
(discarding the candidate) iff some pool member correlates above the
threshold; the candidate is appended iff no member does. -/
def accepts (pool : List (List ℚ)) (w : List ℚ) : Bool :=
  pool.all (fun v => !(absCorrExceedsHalf w v))

/-- The pool-assembly loop of `learn`, driven by the stream of raw CMA-ES
solutions (searching is a black box; each solution still carries its trailing
epsilon).  Each solution is processed (`w[:-1]`, sign flip), checked against
every pool member, and appended on acceptance; the loop stops once `k`
chains are accepted. -/
def assemblePool (k : Nat) : List (List ℚ) → List (List ℚ) → List (List ℚ)
  | [], pool => pool
  | sol :: rest, pool =>
    if pool.length < k then
      let w := processCandidate sol
      if accepts pool w then assemblePool k rest (pool ++ [w])
      else assemblePool k rest pool
    else pool

/-! ## Model evaluation and polarity resolution -/

/-- The sign function `np.sign` on exact values: `1` for positive, `-1` for
negative, `0` for zero. -/
def npSign (x : ℚ) : ℚ := if 0 < x then 1 else if x < 0 then -1 else 0

/-- Modelled from the spec: `LTFArray.eval`
(`pypuf.simulation.arbiter_based.ltfarray`) is not under `src/`.  Per the
LTF Evaluation Oracle description, a response is the sign of the combined
per-chain weighted sums; with the identity transform and the XOR combiner
the combined value is the product of the per-chain dot products. -/
def ltf_eval (pool : List (List ℚ)) (c : List ℚ) : ℚ :=
  npSign ((pool.map (fun w => dot w c)).prod)

/-- Negation of the first chain of a pool (`pool[0] = -pool[0]` in `learn`),
leaving every other chain unchanged. -/
def flipFirst : List (List ℚ) → List (List ℚ)
  | [] => []
  | c :: rest => c.map (fun x => -x) :: rest

/-- Modelled from the spec: `scipy.stats.mode` (external dependency) returns
the most frequent value of a row, and on ties the smallest such value; for a
±1-valued row this is the strict majority sign when one exists and the
constant `-1` on an exact tie. -/
def mode_pm (row : List ℤ) : ℤ :=
  if row.countP (fun b => b == -1) < row.countP (fun b => b == 1) then 1 else -1

/-- Majority-vote ground truth `mode(responses, axis=1)[0]` used by
`test_model`: one majority sign per challenge row. -/
def majority_responses (responses : List (List ℤ)) : List ℤ :=
  responses.map mode_pm

/-- Mean agreement `np.mean(y_true == y_test)` between two equally long
response vectors: the fraction of positions where they are equal. -/
def meanAgreement (yTrue yTest : List ℚ) : ℚ :=
  (List.zipWith (fun a b => if a = b then (1 : ℚ) else 0) yTrue yTest).sum
    / yTrue.length

/-- The method `ReliabilityBasedCMAES.test_model`: mean agreement between the
majority-vote ground truth of the repeated measurements and the model output
on the training challenges. -/
def test_model (pool : List (List ℚ)) (challenges : List (List ℚ))
    (responses : List (List ℤ)) : ℚ :=
  meanAgreement ((majority_responses responses).map (fun z => (z : ℚ)))
    (challenges.map (ltf_eval pool))

/-- The final phase of `learn` (lines 190–194): if the accuracy of the
assembled pool is below `0.5`, negate the first chain and rebuild the model;
the test is made exactly once.  The accuracy function is a parameter; in
`learn` it is `fun p => test_model p challenges responses`. -/
def resolve_polarity (accOf : List (List ℚ) → ℚ) (pool : List (List ℚ)) :
    List (List ℚ) :=
  if accOf pool < 1 / 2 then flipFirst pool else pool

/-- The accuracy evaluation actually used by `learn` when instantiating
`resolve_polarity`. -/
def learn_finalize (pool : List (List ℚ)) (challenges : List (List ℚ))
    (responses : List (List ℤ)) : List (List ℚ) :=
  resolve_polarity (fun p => test_model p challenges responses) pool

/-! ## Learner construction (`ReliabilityBasedCMAES.__init__`) -/

/-- Training set handed to the learner: repeated challenge response pairs. -/
structure TrainingSet where
  challenges : List (List ℤ)
  responses : List (List ℤ)
  deriving Repr, DecidableEq

/-- Error kind the spec asserts for mismatched challenge/response counts. -/
inductive InitError where
  | InputShapeMismatch
  deriving Repr, DecidableEq

/-- State established by `ReliabilityBasedCMAES.__init__` before any search
begins: the static PUF reliabilities and the transformed challenge tensor. -/
structure LearnerState where
  k : Nat
  n : Nat
  abort_delta : ℚ
  puf_reliabilities : List ℚ
  linearized_challenges : List (List (List ℚ))
  deriving Repr

/-- The constructor `ReliabilityBasedCMAES.__init__`: it stores its arguments,
computes the PUF reliabilities and the linearized challenges, and performs no
validation whatsoever — in particular it never compares the number of
challenges with the number of response rows.  The `Except` result type makes
the absence of any error path statable: the source constructor always
succeeds, so the embedding always returns `.ok`. -/
def ReliabilityBasedCMAES.init (training_set : TrainingSet) (k n : Nat)
    (transform : List (List ℤ) → Nat → List (List (List ℚ)))
    (abort_delta : ℚ) : Except InitError LearnerState :=
  .ok
    { k := k
      n := n
      abort_delta := abort_delta
      puf_reliabilities := reliabilities_puf training_set.responses
      linearized_challenges := transform training_set.challenges k }

/-- Modelled from the spec: `LTFArray.transform_id` (not under `src/`) is the
identity input transform — every one of the `k` chains sees the unmodified
challenge. -/
def transform_id (challenges : List (List ℤ)) (k : Nat) :
    List (List (List ℚ)) :=
  challenges.map (fun c => List.replicate k (c.map (fun b => (b : ℚ))))

/-- Encoding of a ±1 response matrix into 0/1 with `+1 ↦ 1` and `-1 ↦ 0`
(the convention named by the spec for the alternative input encoding). -/
def encode01 (m : List (List ℤ)) : List (List ℤ) :=
  m.map (List.map (fun b => if b = 1 then (1 : ℤ) else 0))

/-- A training set whose challenge count (2) differs from its response-row
count (3). -/
def mismatchedTS : TrainingSet :=
  { challenges := [[1, 1], [1, -1]]
    responses := [[1, 1], [1, -1], [-1, -1]] }

/-- A constant accuracy evaluation, used to witness the polarity theorems. -/
def zeroAcc : List (List ℚ) → ℚ := fun _ => 0

/-! ## General lemmas about the embedded operations -/

theorem dot_comm (x y : List ℚ) : dot x y = dot y x := by
  unfold dot
  rw [List.zipWith_comm_of_comm (· * ·) mul_comm]

theorem dot_neg_left : ∀ (w c : List ℚ),
    dot (w.map (fun x => -x)) c = -dot w c
  | [], _ => by simp [dot]
  | _ :: _, [] => by simp [dot]
  | a :: w, b :: c => by
    simp only [dot, List.map_cons, List.zipWith_cons_cons, List.sum_cons]
    have ih := dot_neg_left w c
    simp only [dot] at ih
    rw [ih]
    ring

theorem npSign_neg (x : ℚ) : npSign (-x) = -npSign x := by
  unfold npSign
  rcases lt_trichotomy x 0 with h | h | h
  · simp [h, not_lt.mpr (le_of_lt h), neg_pos.mpr h]
  · simp [h]
  · simp [not_lt.mpr (le_of_lt h), h, neg_neg, neg_lt_zero.mpr h,
      not_lt.mpr (le_of_lt (neg_lt_zero.mpr h))]

theorem npSign_vals (x : ℚ) : npSign x = 1 ∨ npSign x = -1 ∨ npSign x = 0 := by
  unfold npSign
  split
  · exact Or.inl rfl
  · split
    · exact Or.inr (Or.inl rfl)
    · exact Or.inr (Or.inr rfl)

theorem reliabilities_puf_of_neg (m : List (List ℤ))
    (h : containsNegOne m = true) :
    reliabilities_puf m = (transform_challenge_11_to_01 m).map
      (fun row => |(shape1 (transform_challenge_11_to_01 m) : ℚ) / 2 -
        (row.sum : ℚ)|) := by
  simp only [reliabilities_puf, h, if_true]

theorem reliabilities_puf_of_not_neg (m : List (List ℤ))
    (h : containsNegOne m = false) :
    reliabilities_puf m =
      m.map (fun row => |(shape1 m : ℚ) / 2 - (row.sum : ℚ)|) := by
  simp only [reliabilities_puf, h, Bool.false_eq_true, if_false]

theorem sum_transformRow : ∀ (row : List ℤ), (∀ b ∈ row, b = 1 ∨ b = -1) →
    (transformRow row).sum = (row.length : ℤ) - (countPlus row : ℤ)
  | [], _ => rfl
  | b :: row, h => by
    have hb := h b (List.mem_cons_self b row)
    have ih := sum_transformRow row (fun x hx => h x (List.mem_cons_of_mem b hx))
    rcases hb with hb | hb <;> subst hb <;>
      · norm_num [transformRow, countPlus, List.countP_cons] at ih ⊢
        push_cast [ih]
        ring

theorem sum_of_all_one : ∀ (row : List ℤ), (∀ b ∈ row, b = 1) →
    row.sum = (row.length : ℤ)
  | [], _ => rfl
  | b :: row, h => by
    have hb := h b (List.mem_cons_self b row)
    have ih := sum_of_all_one row (fun x hx => h x (List.mem_cons_of_mem b hx))
    subst hb
    simp [ih]
    ring

theorem countPlus_of_all_one (row : List ℤ) (h : ∀ b ∈ row, b = 1) :
    countPlus row = row.length := by
  unfold countPlus
  rw [List.countP_eq_length]
  intro b hb
  simp [h b hb]

theorem shape1_transform (m : List (List ℤ)) :
    shape1 (transform_challenge_11_to_01 m) = shape1 m := by
  cases m with
  | nil => rfl
  | cons r mr => simp [shape1, transform_challenge_11_to_01, transformRow]

/-- Pointwise form of `measured_reliability` on a ±1 matrix: every row
contributes `|R/2 - count_of(+1 in row)|`, exactly as the spec states. -/
theorem reliabilities_puf_eq_of_pm : ∀ (m : List (List ℤ)) (R : Nat),
    (∀ row ∈ m, row.length = R) →
    (∀ row ∈ m, ∀ b ∈ row, b = 1 ∨ b = -1) →
    reliabilities_puf m = m.map (fun row => |(R : ℚ) / 2 - (countPlus row : ℚ)|)
  | [], _, _, _ => rfl
  | r0 :: mr, R, hrect, hpm => by
    have hsR : shape1 (r0 :: mr) = R := by
      simpa [shape1] using hrect r0 (List.mem_cons_self r0 mr)
    unfold reliabilities_puf
    by_cases hC : containsNegOne (r0 :: mr) = true
    · simp only [hC, if_true, shape1_transform, hsR]
      unfold transform_challenge_11_to_01
      rw [List.map_map]
      apply List.map_congr_left
      intro row hrow
      have hlen := hrect row hrow
      have hsum := sum_transformRow row (hpm row hrow)
      simp only [Function.comp_apply]
      rw [show ((transformRow row).sum : ℚ) = ((row.length : ℤ) : ℚ) -
            ((countPlus row : ℤ) : ℚ) by exact_mod_cast congrArg Int.cast hsum]
      push_cast [hlen]
      rw [show (R : ℚ) / 2 - ((R : ℚ) - (countPlus row : ℚ)) =
            -((R : ℚ) / 2 - (countPlus row : ℚ)) by ring, abs_neg]
    · have hnone : ∀ row ∈ r0 :: mr, ∀ b ∈ row, ¬b = -1 := by
        intro row hrow b hb hbneg
        apply hC
        unfold containsNegOne
        rw [List.any_eq_true]
        refine ⟨row, hrow, ?_⟩
        rw [List.any_eq_true]
        exact ⟨b, hb, by simp [hbneg]⟩
      simp only [if_neg hC, hsR]
      apply List.map_congr_left
      intro row hrow
      have hall1 : ∀ b ∈ row, b = 1 := fun b hb =>
        (hpm row hrow b hb).resolve_right (hnone row hrow b hb)
      rw [show (row.sum : ℚ) = ((row.length : ℤ) : ℚ) by
            exact_mod_cast congrArg Int.cast (sum_of_all_one row hall1),
          show countPlus row = row.length from countPlus_of_all_one row hall1]
      norm_cast

theorem row_any_neg_congr {r1 r2 : List ℤ} (hp : r1.Perm r2) :
    r1.any (fun b => b == -1) = r2.any (fun b => b == -1) := by
  cases h2 : r2.any (fun b => b == -1)
  · rw [List.any_eq_false] at h2 ⊢
    intro x hx
    exact h2 x (hp.mem_iff.mp hx)
  · rw [List.any_eq_true] at h2 ⊢
    obtain ⟨x, hx, hpx⟩ := h2
    exact ⟨x, hp.mem_iff.mpr hx, hpx⟩

theorem containsNegOne_congr : ∀ {m m2 : List (List ℤ)},
    List.Forall₂ List.Perm m m2 → containsNegOne m = containsNegOne m2 := by
  intro m m2 h
  unfold containsNegOne
  induction h with
  | nil => rfl
  | cons hab _ ih => simp only [List.any_cons, ih, row_any_neg_congr hab]

theorem transform_forall2 {m m2 : List (List ℤ)}
    (h : List.Forall₂ List.Perm m m2) :
    List.Forall₂ List.Perm (transform_challenge_11_to_01 m)
      (transform_challenge_11_to_01 m2) := by
  unfold transform_challenge_11_to_01 transformRow
  induction h with
  | nil => exact List.Forall₂.nil
  | cons hab _ ih => exact List.Forall₂.cons (hab.map _) ih

theorem shape1_congr : ∀ {m m2 : List (List ℤ)},
    List.Forall₂ List.Perm m m2 → shape1 m = shape1 m2 := by
  intro m m2 h
  cases h with
  | nil => rfl
  | cons hab _ => simpa [shape1] using hab.length_eq

theorem map_abs_sub_sum_congr (q : ℚ) : ∀ {m m2 : List (List ℤ)},
    List.Forall₂ List.Perm m m2 →
    m.map (fun row => |q - (row.sum : ℚ)|) =
      m2.map (fun row => |q - (row.sum : ℚ)|) := by
  intro m m2 h
  induction h with
  | nil => rfl
  | cons hab _ ih => simp only [List.map_cons, ih, hab.sum_eq]

/-- Reordering the measurements within each row (in particular, one common
reordering applied identically to all rows) does not change
`reliabilities_puf`. -/
theorem reliabilities_puf_congr_perm {m m2 : List (List ℤ)}
    (h : List.Forall₂ List.Perm m m2) :
    reliabilities_puf m2 = reliabilities_puf m := by
  unfold reliabilities_puf
  rw [← containsNegOne_congr h]
  by_cases hC : containsNegOne m = true
  · simp only [hC, if_true]
    have h2 := transform_forall2 h
    rw [← shape1_congr h2]
    exact (map_abs_sub_sum_congr _ h2).symm
  · simp only [if_neg hC]
    rw [← shape1_congr h]
    exact (map_abs_sub_sum_congr _ h).symm

/-! ## Claim theorems -/

/-- C8: for every delay-margin vector and every epsilon, `reliabilities_model`
returns a vector whose entry for a challenge is 1 exactly when the absolute
value of that challenge's delay margin strictly exceeds epsilon, and 0
otherwise; every output entry is in {0, 1}. -/
theorem C8_modeled_reliability_spec (dd : List ℚ) (ε : ℚ) (i : Nat)
    (h : i < dd.length) :
    (∀ x ∈ reliabilities_model dd ε, x = 0 ∨ x = 1) ∧
    (reliabilities_model dd ε).length = dd.length ∧
    ((reliabilities_model dd ε).getD i 0 = 1 ↔ ε < |dd.getD i 0|) ∧
    ((reliabilities_model dd ε).getD i 0 = 0 ↔ ¬ε < |dd.getD i 0|) := by
  have hget : (reliabilities_model dd ε).getD i 0 =
      if ε < |dd.getD i 0| then 1 else 0 := by
    simp [reliabilities_model, List.getD_eq_getElem?_getD, List.getElem?_map,
      List.getElem?_eq_getElem h]
  refine ⟨?_, by simp [reliabilities_model], ?_, ?_⟩
  · intro x hx
    simp only [reliabilities_model, List.mem_map] at hx
    obtain ⟨d, _, hd⟩ := hx
    by_cases hc : ε < |d|
    · right; rw [← hd]; simp [hc]
    · left; rw [← hd]; simp [hc]
  · rw [hget]
    by_cases hc : ε < |dd.getD i 0| <;> simp [hc]
  · rw [hget]
    by_cases hc : ε < |dd.getD i 0| <;> simp [hc]

/-- Witness for C8 at the concrete input `dd = [2, -5]`, `ε = 3`, `i = 1`. -/
theorem C8_modeled_reliability_spec_witness :
    (∀ x ∈ reliabilities_model [(2 : ℚ), -5] 3, x = 0 ∨ x = 1) ∧
    (reliabilities_model [(2 : ℚ), -5] 3).length = [(2 : ℚ), -5].length ∧
    ((reliabilities_model [(2 : ℚ), -5] 3).getD 1 0 = 1 ↔
      (3 : ℚ) < |[(2 : ℚ), -5].getD 1 0|) ∧
    ((reliabilities_model [(2 : ℚ), -5] 3).getD 1 0 = 0 ↔
      ¬(3 : ℚ) < |[(2 : ℚ), -5].getD 1 0|) :=
  C8_modeled_reliability_spec [2, -5] 3 1 (by decide)

/-- C7: the assembler canonicalizes a candidate chain's sign, negating the
whole vector exactly when the first component is negative, so the first
component of the canonical form is non-negative; whole-vector negation of the
delay margins leaves `reliabilities_model` unchanged, and negating a weight
vector negates each delay margin. -/
theorem C7_canonicalize_sign (a : ℚ) (t dd : List ℚ) (ε : ℚ) :
    (a < 0 → canonicalize (a :: t) = (a :: t).map (fun x => -x)) ∧
    (0 ≤ a → canonicalize (a :: t) = a :: t) ∧
    0 ≤ (canonicalize (a :: t)).headD 0 ∧
    reliabilities_model (dd.map (fun x => -x)) ε = reliabilities_model dd ε ∧
    (∀ w c : List ℚ, dot (w.map (fun x => -x)) c = -dot w c) := by
  refine ⟨?_, ?_, ?_, ?_, dot_neg_left⟩
  · intro h; simp [canonicalize, h]
  · intro h; simp [canonicalize, not_lt.mpr h]
  · by_cases h : a < 0
    · simp [canonicalize, h]
      linarith
    · simp [canonicalize, h, not_lt.mp h]
  · simp [reliabilities_model, Function.comp]

theorem countP_pm_sum : ∀ (row : List ℤ), (∀ b ∈ row, b = 1 ∨ b = -1) →
    row.countP (fun b => b == 1) + row.countP (fun b => b == -1) = row.length
  | [], _ => rfl
  | b :: row, h => by
    have hb := h b (List.mem_cons_self b row)
    have ih := countP_pm_sum row (fun x hx => h x (List.mem_cons_of_mem b hx))
    rcases hb with hb | hb <;>
      simp [List.countP_cons, hb, ih] <;> omega

/-- Witness for C7 at the concrete input `a = -2`, `t = [3]`, `dd = [1, -4]`,
`ε = 2`. -/
theorem C7_canonicalize_sign_witness :
    ((-2 : ℚ) < 0 → canonicalize ((-2 : ℚ) :: [3]) =
      ((-2 : ℚ) :: [3]).map (fun x => -x)) ∧
    ((0 : ℚ) ≤ -2 → canonicalize ((-2 : ℚ) :: [3]) = (-2 : ℚ) :: [3]) ∧
    0 ≤ (canonicalize ((-2 : ℚ) :: [3])).headD 0 ∧
    reliabilities_model ([(1 : ℚ), -4].map (fun x => -x)) 2 =
      reliabilities_model [(1 : ℚ), -4] 2 ∧
    (∀ w c : List ℚ, dot (w.map (fun x => -x)) c = -dot w c) :=
  C7_canonicalize_sign (-2) [3] [1, -4] 2

/-- C9: the majority-vote ground truth returns, for each challenge, the sign
occurring strictly more often among its R measurements; an exact tie resolves
to the fixed constant sign -1 (the smallest modal value), the same for every
tied challenge; on the spec example the result is `[1, 1, -1, -1]`. -/
theorem C9_majority_vote (row : List ℤ) (hpm : ∀ b ∈ row, b = 1 ∨ b = -1) :
    (2 * row.countP (fun b => b == 1) > row.length → mode_pm row = 1) ∧
    (2 * row.countP (fun b => b == 1) < row.length → mode_pm row = -1) ∧
    (2 * row.countP (fun b => b == 1) = row.length → mode_pm row = -1) ∧
    majority_responses [[1, 1, 1, 1], [1, 1, 1, -1], [1, 1, -1, -1],
      [1, -1, -1, -1]] = [1, 1, -1, -1] := by
  have hsum := countP_pm_sum row hpm
  refine ⟨?_, ?_, ?_, by decide⟩
  · intro h
    have : row.countP (fun b => b == -1) < row.countP (fun b => b == 1) := by
      omega
    simp [mode_pm, this]
  · intro h
    have : ¬row.countP (fun b => b == -1) < row.countP (fun b => b == 1) := by
      omega
    simp [mode_pm, this]
  · intro h
    have : ¬row.countP (fun b => b == -1) < row.countP (fun b => b == 1) := by
      omega
    simp [mode_pm, this]

/-- Witness for C9 at the concrete row `[1, -1, -1]`. -/
theorem C9_majority_vote_witness :
    (2 * List.countP (fun b => b == 1) [(1 : ℤ), -1, -1] >
      List.length [(1 : ℤ), -1, -1] → mode_pm [(1 : ℤ), -1, -1] = 1) ∧
    (2 * List.countP (fun b => b == 1) [(1 : ℤ), -1, -1] <
      List.length [(1 : ℤ), -1, -1] → mode_pm [(1 : ℤ), -1, -1] = -1) ∧
    (2 * List.countP (fun b => b == 1) [(1 : ℤ), -1, -1] =
      List.length [(1 : ℤ), -1, -1] → mode_pm [(1 : ℤ), -1, -1] = -1) ∧
    majority_responses [[1, 1, 1, 1], [1, 1, 1, -1], [1, 1, -1, -1],
      [1, -1, -1, -1]] = [1, 1, -1, -1] :=
  C9_majority_vote [1, -1, -1] (by decide)

/-- C4: when the assembled pool's accuracy is below 0.5 — even when the
accuracy of the flipped pool is also still below 0.5 — the polarity step
negates exactly the first chain once and leaves all other chains unchanged;
the correction is not iterated. -/
theorem C4_polarity_one_shot (accOf : List (List ℚ) → ℚ) (c : List ℚ)
    (rest : List (List ℚ)) (h1 : accOf (c :: rest) < 1 / 2)
    (_h2 : accOf (flipFirst (c :: rest)) < 1 / 2) :
    resolve_polarity accOf (c :: rest) = c.map (fun x => -x) :: rest ∧
    (resolve_polarity accOf (c :: rest)).tail = rest := by
  refine ⟨?_, ?_⟩ <;>
    simp only [resolve_polarity, flipFirst, if_pos h1, List.tail_cons]

theorem zeroAcc_lt_half (pool : List (List ℚ)) : zeroAcc pool < 1 / 2 := by
  norm_num [zeroAcc]

/-- Witness for C4 with the constant-zero accuracy evaluation, whose value is
below 0.5 both before and after the flip. -/
theorem C4_polarity_one_shot_witness :
    resolve_polarity zeroAcc ([(1 : ℚ)] :: [[2]]) =
      [(1 : ℚ)].map (fun x => -x) :: [[2]] ∧
    (resolve_polarity zeroAcc ([(1 : ℚ)] :: [[2]])).tail = [[2]] :=
  C4_polarity_one_shot zeroAcc [1] [[2]] (zeroAcc_lt_half _) (zeroAcc_lt_half _)

/-- C6 counterexample: the claim asserts that mismatched challenge/response
counts fail fast with an `InputShapeMismatch` kind; on a training set with 2
challenges and 3 response rows the constructor succeeds normally, computing
its search state and raising nothing. -/
theorem C6_counterexample :
    mismatchedTS.challenges.length ≠ mismatchedTS.responses.length ∧
    ReliabilityBasedCMAES.init mismatchedTS 1 2 transform_id (1 / 100) =
      .ok { k := 1, n := 2, abort_delta := 1 / 100
            puf_reliabilities := reliabilities_puf mismatchedTS.responses
            linearized_challenges := transform_id mismatchedTS.challenges 1 } :=
  ⟨by decide, rfl⟩

/-- C6 amended: the constructor performs no challenge/response count
validation at all; it always succeeds, and in particular never reports an
`InputShapeMismatch` error, even when the counts differ. -/
theorem C6_no_shape_validation (training_set : TrainingSet) (k n : Nat)
    (transform : List (List ℤ) → Nat → List (List (List ℚ)))
    (abort_delta : ℚ) :
    (∃ st, ReliabilityBasedCMAES.init training_set k n transform abort_delta =
      .ok st) ∧
    ReliabilityBasedCMAES.init training_set k n transform abort_delta ≠
      .error InitError.InputShapeMismatch :=
  ⟨⟨_, rfl⟩, by simp [ReliabilityBasedCMAES.init]⟩

theorem absCorrExceedsHalf_comm (w v : List ℚ) :
    absCorrExceedsHalf w v = absCorrExceedsHalf v w := by
  unfold absCorrExceedsHalf
  rw [decide_eq_decide, dot_comm (centered w) (centered v),
    mul_comm (sumSq (centered w))]

theorem accepts_iff (pool : List (List ℚ)) (w : List ℚ) :
    accepts pool w = true ↔ ∀ v ∈ pool, absCorrExceedsHalf w v = false := by
  unfold accepts
  rw [List.all_eq_true]
  constructor
  · intro h v hv
    simpa using h v hv
  · intro h v hv
    simpa using h v hv

theorem assemblePool_pairwise (k : Nat) : ∀ (cands pool : List (List ℚ)),
    List.Pairwise (fun a b => absCorrExceedsHalf a b = false) pool →
    List.Pairwise (fun a b => absCorrExceedsHalf a b = false)
      (assemblePool k cands pool)
  | [], pool, h => h
  | sol :: rest, pool, h => by
    simp only [assemblePool]
    by_cases hk : pool.length < k
    · rw [if_pos hk]
      by_cases ha : accepts pool (processCandidate sol) = true
      · rw [if_pos ha]
        apply assemblePool_pairwise k rest
        rw [List.pairwise_append]
        refine ⟨h, List.pairwise_singleton _ _, ?_⟩
        intro a ha2 b hb
        simp only [List.mem_singleton] at hb
        subst hb
        rw [absCorrExceedsHalf_comm]
        exact (accepts_iff pool _).mp ha _ ha2
      · rw [if_neg ha]
        exact assemblePool_pairwise k rest pool h
    · rw [if_neg hk]
      exact h

/-- C2 amended: at every point during pool assembly, and in the final pool,
no two accepted chains have absolute weight-vector correlation exceeding the
duplicate threshold 0.5, and a candidate is accepted exactly when its
absolute correlation with every existing member does not exceed (is at most)
the threshold. -/
theorem C2_pool_invariant (k : Nat) (cands pool : List (List ℚ))
    (h : List.Pairwise (fun a b => absCorrExceedsHalf a b = false) pool) :
    List.Pairwise (fun a b => absCorrExceedsHalf a b = false)
      (assemblePool k cands pool) ∧
    (∀ w, accepts pool w = true ↔
      ∀ v ∈ pool, absCorrExceedsHalf w v = false) :=
  ⟨assemblePool_pairwise k cands pool h, fun w => accepts_iff pool w⟩

/-- Witness for C2 starting from the empty pool with one candidate. -/
theorem C2_pool_invariant_witness :
    List.Pairwise (fun a b => absCorrExceedsHalf a b = false)
      (assemblePool 1 [[2, 3]] []) ∧
    (∀ w, accepts [] w = true ↔
      ∀ v ∈ ([] : List (List ℚ)), absCorrExceedsHalf w v = false) :=
  C2_pool_invariant 1 [[2, 3]] [] List.Pairwise.nil

/-- C2 counterexample: the candidates `[1,0,-1]` and `[1,-1,0]` have Pearson
correlation exactly 0.5; the second is accepted into the pool although its
correlation with the first member is NOT strictly below the threshold —
the loop only discards on strictly-greater. -/
theorem C2_counterexample :
    assemblePool 2 [[1, 0, -1, 99], [1, -1, 0, 99]] [] =
      [[1, 0, -1], [1, -1, 0]] ∧
    accepts [[1, 0, -1]] [1, -1, 0] = true ∧
    absCorrBelowHalf [1, -1, 0] [1, 0, -1] = false ∧
    absCorrExceedsHalf [1, -1, 0] [1, 0, -1] = false := by
  refine ⟨?_, ?_, ?_, ?_⟩ <;>
    norm_num [assemblePool, processCandidate, canonicalize, accepts,
      absCorrExceedsHalf, absCorrBelowHalf, dot, centered, mean, sumSq,
      List.dropLast]

/-- C3: on every (N, R) response matrix with entries in {-1, +1},
`reliabilities_puf` returns per row `|R/2 - count_of(+1 in row)|`; every
entry is non-negative, a unanimous row yields `R/2`, an exact half split
yields `0`, and the result is invariant under reordering the R measurements
within the rows (in particular one reordering applied identically to all
rows). -/
theorem C3_measured_reliability (m : List (List ℤ)) (R : Nat)
    (hrect : ∀ row ∈ m, row.length = R)
    (hpm : ∀ row ∈ m, ∀ b ∈ row, b = 1 ∨ b = -1) :
    reliabilities_puf m =
      m.map (fun row => |(R : ℚ) / 2 - (countPlus row : ℚ)|) ∧
    (∀ x ∈ reliabilities_puf m, 0 ≤ x) ∧
    (∀ row ∈ m, ((∀ b ∈ row, b = 1) ∨ (∀ b ∈ row, b = -1)) →
      |(R : ℚ) / 2 - (countPlus row : ℚ)| = (R : ℚ) / 2) ∧
    (∀ row ∈ m, 2 * countPlus row = R →
      |(R : ℚ) / 2 - (countPlus row : ℚ)| = 0) ∧
    (∀ m2, List.Forall₂ List.Perm m m2 →
      reliabilities_puf m2 = reliabilities_puf m) := by
  refine ⟨reliabilities_puf_eq_of_pm m R hrect hpm, ?_, ?_, ?_,
    fun m2 h => reliabilities_puf_congr_perm h⟩
  · intro x hx
    rw [reliabilities_puf_eq_of_pm m R hrect hpm] at hx
    simp only [List.mem_map] at hx
    obtain ⟨row, _, hrow⟩ := hx
    rw [← hrow]
    exact abs_nonneg _
  · intro row hrow hu
    rcases hu with hu | hu
    · rw [countPlus_of_all_one row hu, hrect row hrow]
      rw [show (R : ℚ) / 2 - (R : ℚ) = -((R : ℚ) / 2) by ring, abs_neg]
      exact abs_of_nonneg (by positivity)
    · have hc0 : countPlus row = 0 := by
        unfold countPlus
        rw [List.countP_eq_zero]
        intro b hb
        simp [hu b hb]
      rw [hc0]
      simp only [Nat.cast_zero, sub_zero]
      exact abs_of_nonneg (by positivity)
  · intro row hrow hhalf
    have h2 : (2 * (countPlus row : ℚ)) = (R : ℚ) := by exact_mod_cast hhalf
    have h3 : (R : ℚ) / 2 - (countPlus row : ℚ) = 0 := by linarith
    rw [h3, abs_zero]

/-- Witness for C3 at the concrete matrix `[[1, -1], [1, 1]]` with R = 2. -/
theorem C3_measured_reliability_witness :
    reliabilities_puf [[1, -1], [1, 1]] =
      [[(1 : ℤ), -1], [1, 1]].map
        (fun row => |(2 : ℚ) / 2 - (countPlus row : ℚ)|) ∧
    (∀ x ∈ reliabilities_puf [[1, -1], [1, 1]], 0 ≤ x) ∧
    (∀ row ∈ [[(1 : ℤ), -1], [1, 1]],
      ((∀ b ∈ row, b = 1) ∨ (∀ b ∈ row, b = -1)) →
      |(2 : ℚ) / 2 - (countPlus row : ℚ)| = (2 : ℚ) / 2) ∧
    (∀ row ∈ [[(1 : ℤ), -1], [1, 1]], 2 * countPlus row = 2 →
      |(2 : ℚ) / 2 - (countPlus row : ℚ)| = 0) ∧
    (∀ m2, List.Forall₂ List.Perm [[(1 : ℤ), -1], [1, 1]] m2 →
      reliabilities_puf m2 = reliabilities_puf [[1, -1], [1, 1]]) :=
  C3_measured_reliability [[1, -1], [1, 1]] 2 (by decide) (by decide)

theorem containsNegOne_encode01 (m : List (List ℤ)) :
    containsNegOne (encode01 m) = false := by
  unfold containsNegOne encode01
  rw [List.any_eq_false]
  intro row hrow
  simp only [List.mem_map] at hrow
  obtain ⟨r, _, hr⟩ := hrow
  rw [← hr, Bool.not_eq_true, List.any_eq_false]
  intro b hb
  simp only [List.mem_map] at hb
  obtain ⟨x, _, hx⟩ := hb
  rw [← hx]
  by_cases h1 : x = 1 <;> simp [h1]

theorem sum_encodeRow : ∀ (row : List ℤ),
    (row.map (fun b => if b = 1 then (1 : ℤ) else 0)).sum = (countPlus row : ℤ)
  | [] => rfl
  | b :: row => by
    have ih := sum_encodeRow row
    by_cases h1 : b = 1
    · simp only [List.map_cons, List.sum_cons, if_pos h1, ih, countPlus,
        List.countP_cons, h1]
      push_cast
      simp
      ring
    · simp only [List.map_cons, List.sum_cons, if_neg h1, ih, countPlus,
        List.countP_cons]
      have : ¬(b == 1) = true := by simpa using h1
      simp [this]

/-- C10: on a ±1 response matrix containing at least one -1,
`reliabilities_puf` gives the same result as on the corresponding 0/1-encoded
matrix (each +1 encoded as 1, each -1 as 0). -/
theorem C10_encoding_equivalence (m : List (List ℤ)) (R : Nat)
    (hneg : containsNegOne m = true)
    (hrect : ∀ row ∈ m, row.length = R)
    (hpm : ∀ row ∈ m, ∀ b ∈ row, b = 1 ∨ b = -1) :
    reliabilities_puf (encode01 m) = reliabilities_puf m := by
  have hmne : m ≠ [] := by
    intro h
    rw [h] at hneg
    simp [containsNegOne] at hneg
  have hsR : shape1 m = R := by
    cases m with
    | nil => exact absurd rfl hmne
    | cons r mr => simpa [shape1] using hrect r (List.mem_cons_self r mr)
  have hs01 : shape1 (encode01 m) = R := by
    cases m with
    | nil => exact absurd rfl hmne
    | cons r mr =>
      simpa [shape1, encode01] using hrect r (List.mem_cons_self r mr)
  rw [reliabilities_puf_eq_of_pm m R hrect hpm,
    reliabilities_puf_of_not_neg (encode01 m) (containsNegOne_encode01 m),
    hs01]
  unfold encode01
  rw [List.map_map]
  apply List.map_congr_left
  intro row _
  simp only [Function.comp_apply]
  rw [show ((row.map (fun b => if b = 1 then (1 : ℤ) else 0)).sum : ℚ) =
        ((countPlus row : ℤ) : ℚ) from
      congrArg Int.cast (sum_encodeRow row)]
  norm_cast

/-- Witness for C10 at the concrete matrix `[[1, -1]]` with R = 2. -/
theorem C10_encoding_equivalence_witness :
    reliabilities_puf (encode01 [[1, -1]]) = reliabilities_puf [[1, -1]] :=
  C10_encoding_equivalence [[1, -1]] 2 (by decide) (by decide) (by decide)

/-- C1: with weight vector `[0]` and epsilon `2`, every challenge is marked
unreliable, so the modeled reliability vector is the constant `[0, 0, 0, 0]`;
the objective's Pearson computation then produces numerator 0 and denominator
0, i.e. the float division `0/0`, which is NaN — the code propagates NaN
instead of returning the fallback objective value 1 the spec requires. -/
theorem C1_degenerate_objective_nan :
    reliabilities_model ([[(1 : ℚ)], [1], [1], [1]].map (fun c => dot [0] c)) 2 =
      [0, 0, 0, 0] ∧
    objectivePearson [0] 2 [[1], [1], [1], [1]] [0, 1, 2, 1] = ⟨0, 0⟩ ∧
    (objectivePearson [0] 2 [[1], [1], [1], [1]] [0, 1, 2, 1]).isNaN = true := by
  refine ⟨?_, ?_, ?_⟩ <;>
    norm_num [objectivePearson, tf_pearsonr, reliabilities_model, dot,
      centered, mean, sumSq, PearsonResult.isNaN]

theorem ltf_eval_flipFirst (w : List ℚ) (rest : List (List ℚ)) (c : List ℚ) :
    ltf_eval (flipFirst (w :: rest)) c = -ltf_eval (w :: rest) c := by
  unfold ltf_eval flipFirst
  rw [List.map_cons, List.map_cons, List.prod_cons, List.prod_cons,
    dot_neg_left, neg_mul, npSign_neg]

theorem ltf_eval_vals (pool : List (List ℚ)) (c : List ℚ) :
    ltf_eval pool c = 1 ∨ ltf_eval pool c = -1 ∨ ltf_eval pool c = 0 :=
  npSign_vals _

theorem agree_sum_neg : ∀ (ts os : List ℚ), ts.length = os.length →
    (∀ t ∈ ts, t = 1 ∨ t = -1) → (∀ o ∈ os, o = 1 ∨ o = -1) →
    (List.zipWith (fun a b => if a = b then (1 : ℚ) else 0) ts
        (os.map (fun x => -x))).sum =
      (ts.length : ℚ) -
        (List.zipWith (fun a b => if a = b then (1 : ℚ) else 0) ts os).sum
  | [], [], _, _, _ => by simp
  | [], _ :: _, h, _, _ => by simp at h
  | _ :: _, [], h, _, _ => by simp at h
  | t :: ts, o :: os, h, ht, ho => by
    have ih := agree_sum_neg ts os (by simpa using h)
      (fun x hx => ht x (List.mem_cons_of_mem t hx))
      (fun x hx => ho x (List.mem_cons_of_mem o hx))
    have ht0 := ht t (List.mem_cons_self t ts)
    have ho0 := ho o (List.mem_cons_self o os)
    simp only [List.map_cons, List.zipWith_cons_cons, List.sum_cons,
      List.length_cons, ih]
    rcases ht0 with h1 | h1 <;> rcases ho0 with h2 | h2 <;>
      subst h1 <;> subst h2 <;> norm_num <;> ring

/-- C5 amended: for the XOR combiner, negating the first chain negates the
model's raw signed output on every challenge; provided the model's output is
non-zero (a strict ±1 response) on every challenge of a non-empty challenge
set, and the majority-vote ground truth has entries in {-1, +1}, the mean
agreement after the flip equals exactly 1 minus the mean agreement before. -/
theorem C5_flip_agreement (w : List ℚ) (rest : List (List ℚ))
    (chs : List (List ℚ)) (truth : List ℚ)
    (hlen : truth.length = chs.length) (hne : chs ≠ [])
    (htruth : ∀ t ∈ truth, t = 1 ∨ t = -1)
    (hout : ∀ c ∈ chs, ltf_eval (w :: rest) c ≠ 0) :
    (∀ c, ltf_eval (flipFirst (w :: rest)) c = -ltf_eval (w :: rest) c) ∧
    meanAgreement truth (chs.map (ltf_eval (flipFirst (w :: rest)))) =
      1 - meanAgreement truth (chs.map (ltf_eval (w :: rest))) := by
  refine ⟨fun c => ltf_eval_flipFirst w rest c, ?_⟩
  have hmap : chs.map (ltf_eval (flipFirst (w :: rest))) =
      (chs.map (ltf_eval (w :: rest))).map (fun x => -x) := by
    rw [List.map_map]
    apply List.map_congr_left
    intro c _
    simp only [Function.comp_apply, ltf_eval_flipFirst]
  rw [hmap]
  have hlen2 : truth.length = (chs.map (ltf_eval (w :: rest))).length := by
    simpa using hlen
  have hovals : ∀ o ∈ chs.map (ltf_eval (w :: rest)), o = 1 ∨ o = -1 := by
    intro o hoo
    simp only [List.mem_map] at hoo
    obtain ⟨c, hc, rfl⟩ := hoo
    rcases ltf_eval_vals (w :: rest) c with h | h | h
    · exact Or.inl h
    · exact Or.inr h
    · exact absurd h (hout c hc)
  unfold meanAgreement
  rw [agree_sum_neg truth (chs.map (ltf_eval (w :: rest))) hlen2 htruth hovals]
  have hN : (truth.length : ℚ) ≠ 0 := by
    have hc0 : chs.length ≠ 0 := fun h0 =>
      hne (List.eq_nil_of_length_eq_zero h0)
    rw [hlen]
    exact_mod_cast hc0
  field_simp

theorem C5_witness_truth : ∀ t ∈ [(1 : ℚ)], t = 1 ∨ t = -1 := by
  intro t ht
  simp only [List.mem_singleton] at ht
  exact Or.inl ht

theorem C5_witness_out : ∀ c ∈ [[(1 : ℚ)]], ltf_eval [[1]] c ≠ 0 := by
  intro c hc
  simp only [List.mem_singleton] at hc
  subst hc
  norm_num [ltf_eval, npSign, dot]

/-- Witness for C5 at the one-chain model `[[1]]`, challenge set `[[1]]`
and ground truth `[1]`. -/
theorem C5_flip_agreement_witness :
    (∀ c, ltf_eval (flipFirst ([(1 : ℚ)] :: [])) c =
      -ltf_eval ([(1 : ℚ)] :: []) c) ∧
    meanAgreement [1] ([[(1 : ℚ)]].map (ltf_eval (flipFirst ([(1 : ℚ)] :: [])))) =
      1 - meanAgreement [1] ([[(1 : ℚ)]].map (ltf_eval ([(1 : ℚ)] :: []))) :=
  C5_flip_agreement [1] [] [[1]] [1] rfl (List.cons_ne_nil _ _)
    C5_witness_truth C5_witness_out

/-- C5 counterexample: for the model `[[1,1],[1,0]]` and the single challenge
`[1,-1]` the first chain's delay sum is zero, so the model output is 0 both
before and after the flip; with ground truth `[1]` (entries in {-1,+1}) the
mean agreement is 0 before and 0 after, not `1 - 0`. -/
theorem C5_counterexample :
    ltf_eval [[1, 1], [1, 0]] [1, -1] = 0 ∧
    ¬meanAgreement [1]
        ([[(1 : ℚ), -1]].map (ltf_eval (flipFirst [[1, 1], [1, 0]]))) =
      1 - meanAgreement [1]
        ([[(1 : ℚ), -1]].map (ltf_eval [[1, 1], [1, 0]])) := by
  constructor
  · norm_num [ltf_eval, npSign, dot]
  · norm_num [meanAgreement, ltf_eval, flipFirst, npSign, dot]

end Pypuf
